import Mathlib

/-!
Verification of the deterministic core of the ChronoLearn knowledge-graph
pipeline: text normalization (`src/pipeline/text_normalizer.py`), event
segmentation and predicate filtering (`src/pipeline/triple_generator.py`),
ontology template resolution (`src/Initial_Implementation/tbox_loader.py`),
Turtle serialization (`src/Initial_Implementation/pipeline/rdf_exporter.py`)
and graph construction/merging (`src/kg/graph_builder.py`).

Python strings are embedded as lists of Unicode code points (`PyStr`).
The filesystem is threaded through as an explicit map from paths to file
contents, and the external LLM collaborator as an explicit function argument.
-/

/-- A Python string, as its list of Unicode code points. -/
abbrev PyStr := List Nat

/-- Embed a Lean string literal as a `PyStr`. -/
def pyStr (s : String) : PyStr := s.data.map Char.toNat

/-- Python whitespace (`str.isspace` / regex `\s` for `str` patterns):
the ASCII whitespace and separator controls plus the Unicode
White_Space code points. -/
def pyIsSpace (c : Nat) : Bool :=
  (9 ≤ c && c ≤ 13) || (28 ≤ c && c ≤ 31) || c == 32 || c == 0x85 || c == 0xA0 ||
  c == 0x1680 || (0x2000 ≤ c && c ≤ 0x200A) || c == 0x2028 || c == 0x2029 ||
  c == 0x202F || c == 0x205F || c == 0x3000

/-- Canonical composition of an Arabic base letter with a following
combining mark, as performed by Unicode NFC: the five precomposed
letters U+0622..U+0626 arise from Alef/Waw/Yeh plus Madda above (U+0653),
Hamza above (U+0654) or Hamza below (U+0655). -/
def nfcPair (b m : Nat) : Option Nat :=
  if b == 0x627 && m == 0x653 then some 0x622
  else if b == 0x627 && m == 0x654 then some 0x623
  else if b == 0x648 && m == 0x654 then some 0x624
  else if b == 0x627 && m == 0x655 then some 0x625
  else if b == 0x64A && m == 0x654 then some 0x626
  else none

/-- Left-to-right composition pass of `nfc`, carrying the current base
character. -/
def nfcGo : Nat → PyStr → PyStr
  | b, [] => [b]
  | b, m :: rest =>
    match nfcPair b m with
    | some c => nfcGo c rest
    | none => b :: nfcGo m rest

/-- Models `unicodedata.normalize("NFC", text)` restricted to the canonical
compositions of the Arabic block (the only compositions exercised by the
Arabic-script inputs of this pipeline): adjacent base+mark pairs among the
five Arabic compositions are combined, everything else is left unchanged. -/
def nfc : PyStr → PyStr
  | [] => []
  | c :: rest => nfcGo c rest

/-- `text.replace("ـ", "")`: remove Tatweel (U+0640). -/
def removeTatweel (s : PyStr) : PyStr := s.filter (fun c => c ≠ 0x640)

/-- The sequential `text.replace` calls over `alef_map`
(إ U+0625, أ U+0623, آ U+0622, ٱ U+0671 all mapped to ا U+0627),
as a single character map (the sources are distinct single characters
and the target is not a source). -/
def alefMapChar (c : Nat) : Nat :=
  if c = 0x625 ∨ c = 0x623 ∨ c = 0x622 ∨ c = 0x671 then 0x627 else c

/-- `text.replace("ى", "ي")`: Alif Maqsura (U+0649) to Yeh (U+064A). -/
def yehMapChar (c : Nat) : Nat := if c = 0x649 then 0x64A else c

/-- `text.replace("ة", "ه")`: Ta Marbuta (U+0629) to Heh (U+0647). -/
def tehMapChar (c : Nat) : Nat := if c = 0x629 then 0x647 else c

/-- The diacritics character class `[ؗ-ًؚ-ْۖ-ۭ]`. -/
def isArabicDiacritic (c : Nat) : Bool :=
  (0x617 ≤ c && c ≤ 0x61A) || (0x64B ≤ c && c ≤ 0x652) || (0x6D6 ≤ c && c ≤ 0x6ED)

/-- `re.compile(r"[؀-ۿ]").search(text)`: does the text contain a
code point of the Arabic block? -/
def hasArabicChar (s : PyStr) : Bool := s.any (fun c => 0x600 ≤ c && c ≤ 0x6FF)

/-- The Arabic-specific replacement steps of `normalize_arabic`, applied
after NFC when the text contains an Arabic-block character: Tatweel
removal, Alef/Hamza canonicalization, Yeh and Ta-Marbuta unification,
diacritics removal. -/
def arabicSteps (s : PyStr) : PyStr :=
  ((((removeTatweel s).map alefMapChar).map yehMapChar).map tehMapChar).filter
    (fun c => !(isArabicDiacritic c))

/-- `normalize_arabic` from `src/pipeline/text_normalizer.py`: NFC, then the
Arabic replacement steps, skipped entirely when no Arabic-block character
is present. -/
def normalize_arabic (s : PyStr) : PyStr :=
  if hasArabicChar (nfc s) then arabicSteps (nfc s) else nfc s

/-- `re.sub(r"[\x00-\x1F\x7F]", "", text)`: remove control characters. -/
def removeCtrl (s : PyStr) : PyStr := s.filter (fun c => !(c ≤ 31 || c == 127))

/-- Single pass of `re.sub(r"\s+", " ", text)`: each maximal run of
whitespace becomes one space.  The flag records whether we are inside a
whitespace run already represented by an emitted space. -/
def cwsGo : Bool → PyStr → PyStr
  | _, [] => []
  | inRun, c :: rest =>
    if pyIsSpace c then
      (if inRun then cwsGo true rest else 32 :: cwsGo true rest)
    else c :: cwsGo false rest

/-- `re.sub(r"\s+", " ", text)`. -/
def collapseWS (s : PyStr) : PyStr := cwsGo false s

/-- Python `str.strip()`: drop leading and trailing whitespace. -/
def pyStrip (s : PyStr) : PyStr :=
  ((s.dropWhile pyIsSpace).reverse.dropWhile pyIsSpace).reverse

/-- `normalize_english` from `src/pipeline/text_normalizer.py`: remove
control characters, collapse whitespace runs, strip. -/
def normalize_english (s : PyStr) : PyStr := pyStrip (collapseWS (removeCtrl s))

/-- The character class `[.!?؟]` of the punctuation de-duplication rule. -/
def isDedupPunct (c : Nat) : Bool := c == 46 || c == 33 || c == 63 || c == 0x61F

/-- Single pass of `re.sub(r"([.!?؟])\1+", r"\1", text)`: a run of the same
punctuation character collapses to a single occurrence.  The first argument
is the punctuation character whose run we are inside, if any. -/
def ddGo : Option Nat → PyStr → PyStr
  | _, [] => []
  | prev, c :: rest =>
    if prev == some c && isDedupPunct c then ddGo prev rest
    else c :: ddGo (if isDedupPunct c then some c else none) rest

/-- `re.sub(r"([.!?؟])\1+", r"\1", text)`. -/
def dedupPunct (s : PyStr) : PyStr := ddGo none s

/-- The character class `[.,!?:؟]` of the spacing-before-punctuation rule. -/
def isSpacingPunct (c : Nat) : Bool :=
  c == 46 || c == 44 || c == 33 || c == 63 || c == 58 || c == 0x61F

/-- Single pass of `re.sub(r"\s+([.,!?:؟])", r"\1", text)`: a whitespace run
immediately followed by one of the punctuation characters is deleted.  The
first argument accumulates (reversed) the pending whitespace run. -/
def fpsGo : PyStr → PyStr → PyStr
  | pend, [] => pend.reverse
  | pend, c :: rest =>
    if pyIsSpace c then fpsGo (c :: pend) rest
    else if isSpacingPunct c && !pend.isEmpty then c :: fpsGo [] rest
    else pend.reverse ++ c :: fpsGo [] rest

/-- `re.sub(r"\s+([.,!?:؟])", r"\1", text)`. -/
def fixPunctSpace (s : PyStr) : PyStr := fpsGo [] s

/-- `clean_text` from `src/pipeline/text_normalizer.py`: empty (falsy) input
yields the empty string; otherwise Arabic normalization, English cleanup,
punctuation de-duplication, removal of spacing before punctuation, strip. -/
def clean_text (s : PyStr) : PyStr :=
  if s.isEmpty then []
  else pyStrip (fixPunctSpace (dedupPunct (normalize_english (normalize_arabic s))))

/-- Worker for Python `text.split("\n")`, accumulating the current part
reversed. -/
def splitNLGo : PyStr → PyStr → List PyStr
  | acc, [] => [acc.reverse]
  | acc, c :: rest =>
    if c = 10 then acc.reverse :: splitNLGo [] rest else splitNLGo (c :: acc) rest

/-- Python `text.split("\n")`: every newline separates parts, empty parts
are kept, the empty string yields one empty part. -/
def splitOnNL (s : PyStr) : List PyStr := splitNLGo [] s

/-- Python `"\n".join(parts)`. -/
def joinNL : List PyStr → PyStr
  | [] => []
  | [s] => s
  | s :: rest => s ++ 10 :: joinNL rest

/-- Python substring test `p in s`. -/
def containsSub (p : PyStr) : PyStr → Bool
  | [] => p.isEmpty
  | c :: rest => List.isPrefixOf p (c :: rest) || containsSub p rest

/-- The fixed Arabic event-marker terms of `segment_into_events`. -/
def eventMarkers : List PyStr :=
  [pyStr "معركة", pyStr "أحداث", pyStr "حرب", pyStr "اشتباك", pyStr "صراع",
   pyStr "وقعت", pyStr "اندلعت", pyStr "حدثت", pyStr "اجتياح", pyStr "عملية",
   pyStr "اغتيال"]

/-- `any(m in line for m in markers)`. -/
def lineHasMarker (line : PyStr) : Bool :=
  eventMarkers.any (fun m => containsSub m line)

/-- The grouping loop of `segment_into_events`: a marker line flushes the
current group (when non-empty) and starts a new one, any other line is
appended to the current group; the final group is flushed when non-empty.
Groups are lists of lines. -/
def segGo : List PyStr → List PyStr → List (List PyStr)
  | current, [] => if current.isEmpty then [] else [current]
  | current, line :: rest =>
    if lineHasMarker line then
      (if current.isEmpty then segGo [line] rest else current :: segGo [line] rest)
    else segGo (current ++ [line]) rest

/-- The segments accumulated by `segment_into_events` before the final
per-segment strip-and-drop comprehension: each group of lines joined
with newlines. -/
def segmentsRaw (text : PyStr) : List PyStr :=
  (segGo [] (splitOnNL text)).map joinNL

/-- `segment_into_events` from `src/pipeline/triple_generator.py`:
`[seg.strip() for seg in segments if seg.strip()]` applied to the
accumulated segments. -/
def segment_into_events (text : PyStr) : List PyStr :=
  ((segmentsRaw text).map pyStrip).filter (fun seg => !seg.isEmpty)

/-- `EVENT_PREDICATES` from `src/pipeline/triple_generator.py`
(also `tbox_loader.py`), as an insertion-ordered key/gloss table. -/
def EVENT_PREDICATES : List (PyStr × PyStr) :=
  [(pyStr "occurredIn", pyStr "وقع في"),
   (pyStr "occurredOn", pyStr "وقع بتاريخ"),
   (pyStr "hasParticipant", pyStr "شارك فيه"),
   (pyStr "hasOutcome", pyStr "نتج عنه"),
   (pyStr "relatedToEvent", pyStr "مرتبط ب"),
   (pyStr "precededBy", pyStr "سبق"),
   (pyStr "followedBy", pyStr "تلاه")]

/-- `CULTURAL_PREDICATES` from `src/pipeline/triple_generator.py`. -/
def CULTURAL_PREDICATES : List (PyStr × PyStr) :=
  [(pyStr "originatedIn", pyStr "نشأت في"),
   (pyStr "practicedBy", pyStr "تمارس من قبل"),
   (pyStr "belongsToCulture", pyStr "ينتمي إلى ثقافة"),
   (pyStr "relatedTradition", pyStr "مرتبط بتقليد"),
   (pyStr "hasSymbolism", pyStr "له دلالة")]

/-- `get_allowed_predicates` from `src/pipeline/triple_generator.py`:
fixed tables for `event` and `cultural`, the empty mapping otherwise. -/
def get_allowed_predicates (theme : PyStr) : List (PyStr × PyStr) :=
  if theme = pyStr "event" then EVENT_PREDICATES
  else if theme = pyStr "cultural" then CULTURAL_PREDICATES
  else []

/-- A candidate triple `{subject, predicate, object, span}` as produced by
the external generation collaborator and consumed by this core. -/
structure Triple where
  subject : PyStr
  predicate : PyStr
  object_ : PyStr
  span : PyStr
deriving DecidableEq

/-- The keys of an allowed-predicate table (`p in allowed` on a Python dict
tests key membership). -/
def predKeys (allowed : List (PyStr × PyStr)) : List PyStr := allowed.map Prod.fst

/-- The predicate-filtering comprehension of `generate_triples`:
`[t for t in all_triples if t.get("predicate") in allowed]`. -/
def filterTriples (allowed : List (PyStr × PyStr)) (ts : List Triple) : List Triple :=
  ts.filter (fun t => (predKeys allowed).any (fun k => decide (k = t.predicate)))

/-- `ONTOLOGY_DIR` from `src/Initial_Implementation/tbox_loader.py`. -/
def ONTOLOGY_DIR : PyStr := pyStr "ontology"

/-- `os.path.join(ONTOLOGY_DIR, filename)`. -/
def tboxPath (filename : PyStr) : PyStr := ONTOLOGY_DIR ++ 47 :: filename

/-- `load_tbox_file` from `src/Initial_Implementation/tbox_loader.py`,
with the filesystem passed explicitly as a map from paths to contents:
a missing file yields the warning placeholder, never an error. -/
def load_tbox_file (fs : PyStr → Option PyStr) (filename : PyStr) : PyStr :=
  match fs (tboxPath filename) with
  | none => pyStr "# WARNING: Missing T-Box file: " ++ filename
  | some content => content

/-- Python falsiness of the optional `user_tbox` argument
(`if not user_tbox`): absent or the empty string. -/
def userTboxFalsy (user_tbox : Option PyStr) : Prop :=
  user_tbox = none ∨ user_tbox = some []

instance : DecidablePred userTboxFalsy := fun ut =>
  inferInstanceAs (Decidable (ut = none ∨ ut = some []))

/-- `load_tbox_template` from `src/Initial_Implementation/tbox_loader.py`:
returns the template text and the ontology class; a `ValueError` is
modelled as `Except.error` carrying the message. -/
def load_tbox_template (fs : PyStr → Option PyStr) (theme : PyStr)
    (user_tbox : Option PyStr) : Except PyStr (PyStr × PyStr) :=
  if theme = pyStr "event" then
    .ok (load_tbox_file fs (pyStr "event.tbox.ttl"), pyStr "dbo:Event")
  else if theme = pyStr "cultural" then
    .ok (load_tbox_file fs (pyStr "cultural.tbox.ttl"), pyStr "dbo:CulturalHeritageObject")
  else if theme = pyStr "other" then
    if userTboxFalsy user_tbox then
      .error (pyStr "User must provide a T-Box class when theme=\x27other\x27.")
    else .ok (load_tbox_file fs (pyStr "custom.tbox.ttl"), user_tbox.getD [])
  else .error (pyStr "Unknown theme: " ++ theme)

/-- Does an `Except` hold an error (a raised exception)? -/
def exceptIsError {α β : Type} : Except α β → Bool
  | .error _ => true
  | .ok _ => false

/-- `generate_triples` from `src/pipeline/triple_generator.py`, with the
filesystem and the LLM collaborator (`generate_triples_for_segment`,
receiving segment, topics, theme and template) passed explicitly:
clean the text, resolve the T-Box, segment, collect the candidate triples
of every segment, and keep only those whose predicate is allowed. -/
structure GenResult where
  theme : PyStr
  tbox : PyStr
  segments : List PyStr
  triples : List Triple

def generate_triples (fs : PyStr → Option PyStr)
    (llm : PyStr → List PyStr → PyStr → PyStr → List Triple)
    (text : PyStr) (topics : List PyStr) (theme : PyStr)
    (user_tbox : Option PyStr := none) : Except PyStr GenResult :=
  let cleaned := clean_text text
  match load_tbox_template fs theme user_tbox with
  | .error e => .error e
  | .ok (tbox_template, tbox_class) =>
    let segments := segment_into_events cleaned
    let all_triples := segments.flatMap (fun seg => llm seg topics theme tbox_template)
    let allowed := get_allowed_predicates theme
    .ok { theme := theme, tbox := tbox_class, segments := segments,
          triples := filterTriples allowed all_triples }

/-- `slugify` from `src/Initial_Implementation/pipeline/rdf_exporter.py`:
NFC, then spaces, slashes and backslashes become underscores. -/
def slugify (s : PyStr) : PyStr :=
  (nfc s).map (fun c => if c = 32 ∨ c = 47 ∨ c = 92 then 95 else c)

/-- `canonical_entity`: strip, slugify, prefix with `:`. -/
def canonical_entity (entity : PyStr) : PyStr := 58 :: slugify (pyStrip entity)

/-- `canonical_event_id`: `:Event_<i>`. -/
def canonical_event_id (i : Nat) : PyStr := 58 :: pyStr "Event_" ++ pyStr (toString i)

/-- Left-biased lookup in an association list keyed by strings (a Python
dict lookup; keys are unique by construction). -/
def alookup {α : Type} : List (PyStr × α) → PyStr → Option α
  | [], _ => none
  | (k, v) :: rest, key => if k = key then some v else alookup rest key

/-- The four lines `export_turtle` appends for one triple: typing, subject
label, object label, and the predicate statement (whose string ends in a
newline in the source). -/
def turtleTripleBlock (tbox_class sid : PyStr) (t : Triple) : List PyStr :=
  [sid ++ pyStr " a " ++ tbox_class ++ pyStr " .",
   sid ++ pyStr " rdfs:label \"" ++ t.subject ++ pyStr "\"@ar .",
   canonical_entity t.object_ ++ pyStr " rdfs:label \"" ++ t.object_ ++ pyStr "\"@ar .",
   sid ++ pyStr " onto:" ++ slugify t.predicate ++ 32 :: canonical_entity t.object_
     ++ pyStr " .\n"]

/-- The per-triple loop of `export_turtle`: `get_event_id` assigns
`:Event_<n>` ids to subjects in first-seen order through `event_map`
(association list) and `event_counter`. -/
def turtleBody (tbox_class : PyStr) :
    List (PyStr × PyStr) → Nat → List Triple → List PyStr
  | _, _, [] => []
  | event_map, counter, t :: rest =>
    match alookup event_map t.subject with
    | some sid => turtleTripleBlock tbox_class sid t
        ++ turtleBody tbox_class event_map counter rest
    | none => turtleTripleBlock tbox_class (canonical_event_id counter) t
        ++ turtleBody tbox_class ((t.subject, canonical_event_id counter) :: event_map)
            (counter + 1) rest

/-- The fixed namespace-prefix header of `export_turtle`. -/
def turtleHeader : PyStr :=
  pyStr "\n@prefix : <http://example.org/resource/> .\n@prefix onto: <http://example.org/ontology/> .\n@prefix dbo: <http://dbpedia.org/ontology/> .\n@prefix rdfs: <http://www.w3.org/2000/01/rdf-schema#> .\n\n"

/-- The Turtle text produced by `export_turtle` from
`src/Initial_Implementation/pipeline/rdf_exporter.py` (the string written
to `save_path`): header, the T-Box template as `# `-prefixed comment lines,
a blank line, then the per-triple blocks, all joined with newlines.
`load_tbox_template` is called with the theme only, so its `ValueError`
propagates. -/
def export_turtle_text (fs : PyStr → Option PyStr) (triples : List Triple)
    (tbox_class theme : PyStr) : Except PyStr PyStr :=
  match load_tbox_template fs theme none with
  | .error e => .error e
  | .ok (tbox_template, _) =>
    .ok (joinNL ([turtleHeader, pyStr "# Ontology Template Used"]
      ++ (splitOnNL tbox_template).map (fun l => pyStr "# " ++ l)
      ++ [[]]
      ++ turtleBody tbox_class [] 1 triples))

/-- Worker for Python `str.split()` (no arguments): split on whitespace
runs dropping empty parts; the accumulator holds the current word
reversed. -/
def wordsGo : PyStr → PyStr → List PyStr
  | acc, [] => if acc.isEmpty then [] else [acc.reverse]
  | acc, c :: rest =>
    if pyIsSpace c then
      (if acc.isEmpty then wordsGo [] rest else acc.reverse :: wordsGo [] rest)
    else wordsGo (c :: acc) rest

/-- Python `label.split()`. -/
def pyWords (s : PyStr) : List PyStr := wordsGo [] s

/-- `normalize_label` from `src/kg/graph_builder.py`:
`" ".join(label.split()).strip()`. -/
def normalize_label (s : PyStr) : PyStr :=
  pyStrip (List.intercalate [32] (pyWords s))

/-- A Python attribute dictionary: insertion-ordered key/value pairs with
unique keys. -/
abbrev Attrs := List (PyStr × PyStr)

/-- `d[k] = v` on a Python dict: overwrite in place, else append. -/
def dictSet : Attrs → PyStr → PyStr → Attrs
  | [], k, v => [(k, v)]
  | (k0, v0) :: rest, k, v =>
    if k0 = k then (k, v) :: rest else (k0, v0) :: dictSet rest k v

/-- Python `a.update(b)`. -/
def dictUpdate (a b : Attrs) : Attrs :=
  b.foldl (fun acc p => dictSet acc p.1 p.2) a

/-- A `networkx.DiGraph`: insertion-ordered node and edge dictionaries.
Nodes are keyed by their id, edges by the ordered pair (source, target). -/
structure PyGraph where
  nodes : List (PyStr × Attrs)
  edges : List ((PyStr × PyStr) × Attrs)
deriving DecidableEq

/-- The graph `nx.DiGraph()`. -/
def emptyPyGraph : PyGraph := ⟨[], []⟩

/-- Python `n in G` (node membership). -/
def hasNode (G : PyGraph) (n : PyStr) : Bool :=
  G.nodes.any (fun p => decide (p.1 = n))

/-- `G.has_edge(u, v)`. -/
def hasEdge (G : PyGraph) (u v : PyStr) : Bool :=
  G.edges.any (fun e => decide (e.1 = (u, v)))

/-- Append a fresh node entry (the absent-key case of `G.add_node`). -/
def addNodeRaw (G : PyGraph) (n : PyStr) (a : Attrs) : PyGraph :=
  { G with nodes := G.nodes ++ [(n, a)] }

/-- `G.nodes[n].update(a)`: update the stored attribute dict of `n`. -/
def updateNodeAttrs (G : PyGraph) (n : PyStr) (a : Attrs) : PyGraph :=
  { G with nodes := G.nodes.map (fun q => if q.1 = n then (q.1, dictUpdate q.2 a) else q) }

/-- `G.edges[u, v].update(a)`: update the stored attribute dict of the
edge. -/
def updateEdgeAttrs (G : PyGraph) (u v : PyStr) (a : Attrs) : PyGraph :=
  { G with edges := G.edges.map (fun q => if q.1 = (u, v) then (q.1, dictUpdate q.2 a) else q) }

/-- `G.add_edge(u, v, **a)` in networkx: missing endpoints are created as
attribute-less nodes; an existing edge has its attribute dict updated,
otherwise the edge is appended. -/
def nxAddEdge (G : PyGraph) (u v : PyStr) (a : Attrs) : PyGraph :=
  let G1 := if hasNode G u then G else addNodeRaw G u []
  let G2 := if hasNode G1 v then G1 else addNodeRaw G1 v []
  if hasEdge G2 u v then updateEdgeAttrs G2 u v a
  else { G2 with edges := G2.edges ++ [((u, v), a)] }

/-- The node attribute dict built by `add_triple`
(`label=..., theme=..., tbox=..., source=..., type="entity"`). -/
def tripleNodeAttrs (label theme tbox source_file : PyStr) : Attrs :=
  [(pyStr "label", label), (pyStr "theme", theme), (pyStr "tbox", tbox),
   (pyStr "source", source_file), (pyStr "type", pyStr "entity")]

/-- The edge attribute dict built by `add_triple`. -/
def tripleEdgeAttrs (predicate theme tbox span source_file : PyStr) : Attrs :=
  [(pyStr "label", predicate), (pyStr "predicate", predicate),
   (pyStr "theme", theme), (pyStr "tbox", tbox), (pyStr "span", span),
   (pyStr "source", source_file)]

/-- `add_triple` from `src/kg/graph_builder.py`: normalize the labels, add
the subject and object nodes only when absent, then `G.add_edge` with the
predicate and provenance attributes. -/
def add_triple (G : PyGraph) (t : Triple)
    (theme : PyStr := []) (tbox : PyStr := []) (source_file : PyStr := []) : PyGraph :=
  let subject := normalize_label t.subject
  let predicate := normalize_label t.predicate
  let object_ := normalize_label t.object_
  let span := t.span
  let G1 := if hasNode G subject then G
    else addNodeRaw G subject (tripleNodeAttrs subject theme tbox source_file)
  let G2 := if hasNode G1 object_ then G1
    else addNodeRaw G1 object_ (tripleNodeAttrs object_ theme tbox source_file)
  nxAddEdge G2 subject object_ (tripleEdgeAttrs predicate theme tbox span source_file)

/-- `build_graph_from_triples` from `src/kg/graph_builder.py`. -/
def build_graph_from_triples (triples : List Triple) (theme tbox : PyStr)
    (source_file : PyStr := []) : PyGraph :=
  triples.foldl (fun G t => add_triple G t theme tbox source_file) emptyPyGraph

/-- The node loop of `merge_graphs`: absent nodes are added with their
attributes, present nodes have their attribute dicts updated. -/
def mergeNodesAux : PyGraph → List (PyStr × Attrs) → PyGraph
  | A, [] => A
  | A, p :: rest =>
    mergeNodesAux (if hasNode A p.1 then updateNodeAttrs A p.1 p.2 else addNodeRaw A p.1 p.2) rest

/-- The edge loop of `merge_graphs`: absent edges are added with
`G.add_edge`, present edges have their attribute dicts updated. -/
def mergeEdgesAux : PyGraph → List ((PyStr × PyStr) × Attrs) → PyGraph
  | A, [] => A
  | A, e :: rest =>
    mergeEdgesAux (if hasEdge A e.1.1 e.1.2 then updateEdgeAttrs A e.1.1 e.1.2 e.2
      else nxAddEdge A e.1.1 e.1.2 e.2) rest

/-- The outer loop of `merge_graphs` over the input graphs. -/
def mergeAux : PyGraph → List PyGraph → PyGraph
  | A, [] => A
  | A, g :: rest => mergeAux (mergeEdgesAux (mergeNodesAux A g.nodes) g.edges) rest

/-- `merge_graphs` from `src/kg/graph_builder.py`: fold every input graph
into an initially empty graph, nodes first, then edges. -/
def merge_graphs (graphs : List PyGraph) : PyGraph := mergeAux emptyPyGraph graphs

/-- The invariant a real `networkx` graph satisfies: node keys and edge
keys are unique, and every edge's endpoints are nodes of the graph. -/
def wellFormed (G : PyGraph) : Prop :=
  (G.nodes.map Prod.fst).Nodup ∧ (G.edges.map Prod.fst).Nodup ∧
    ∀ e ∈ G.edges, hasNode G e.1.1 = true ∧ hasNode G e.1.2 = true

/-- Lookup of a node's attribute dict. -/
def lookupNode (G : PyGraph) (n : PyStr) : Option Attrs := alookup G.nodes n

/-- Is `n` an endpoint of some edge of `g`? -/
def isEndpoint (g : PyGraph) (n : PyStr) : Bool :=
  g.edges.any (fun e => decide (e.1.1 = n) || decide (e.1.2 = n))

/-- Membership in the Arabic Unicode block U+0600..U+06FF (the character
class of `arabic_pattern` and of all replacement targets). -/
def isArabicBlock (c : Nat) : Bool := 0x600 ≤ c && c ≤ 0x6FF

/-- The subsequence of characters outside the Arabic block. -/
def nonArabicOf (s : PyStr) : PyStr := s.filter (fun c => !isArabicBlock c)

/-- Unique node keys. -/
def nodupKeys (G : PyGraph) : Prop := (G.nodes.map Prod.fst).Nodup

instance (G : PyGraph) : Decidable (nodupKeys G) := by
  unfold nodupKeys
  infer_instance

/-- Every edge's endpoints are nodes of the graph (the invariant networkx
maintains and `merge_graphs` relies on). -/
def edgesOK (A : PyGraph) : Prop :=
  ∀ e ∈ A.edges, hasNode A e.1.1 = true ∧ hasNode A e.1.2 = true

instance (G : PyGraph) : Decidable (wellFormed G) := by
  unfold wellFormed
  infer_instance

instance (G : PyGraph) : Decidable (edgesOK G) := by
  unfold edgesOK
  infer_instance

/-! ### Generic list lemmas -/

theorem splitNLGo_ne_nil (acc s) : splitNLGo acc s ≠ [] := by
  induction s generalizing acc with
  | nil => simp [splitNLGo]
  | cons c rest ih =>
    simp only [splitNLGo]
    split
    · simp
    · exact ih _

theorem joinNL_cons_of_ne_nil (s : PyStr) (l : List PyStr) (h : l ≠ []) :
    joinNL (s :: l) = s ++ 10 :: joinNL l := by
  cases l with
  | nil => exact absurd rfl h
  | cons t ts => rfl

theorem joinNL_splitNLGo (acc s) : joinNL (splitNLGo acc s) = acc.reverse ++ s := by
  induction s generalizing acc with
  | nil => simp [splitNLGo, joinNL]
  | cons c rest ih =>
    simp only [splitNLGo]
    split
    · rw [joinNL_cons_of_ne_nil _ _ (splitNLGo_ne_nil _ _), ih]
      simp_all
    · rw [ih]; simp

theorem joinNL_splitOnNL (s) : joinNL (splitOnNL s) = s := by
  simpa using joinNL_splitNLGo [] s

theorem segGo_flatten (cur ls) : (segGo cur ls).flatten = cur ++ ls := by
  induction ls generalizing cur with
  | nil =>
    simp only [segGo]
    split
    · simp_all [List.isEmpty_iff]
    · simp
  | cons line rest ih =>
    simp only [segGo]
    split
    · split
      · simp_all [List.isEmpty_iff, ih]
      · simp [ih]
    · rw [ih]; simp

theorem segGo_groups_ne_nil (cur ls) : ∀ g ∈ segGo cur ls, g ≠ [] := by
  induction ls generalizing cur with
  | nil =>
    simp only [segGo]
    split
    · simp
    · simp_all [List.isEmpty_iff]
  | cons line rest ih =>
    simp only [segGo]
    split
    · split
      · exact ih _
      · intro g hg
        rcases List.mem_cons.mp hg with h | h
        · subst h; simp_all [List.isEmpty_iff]
        · exact ih _ g h
    · exact ih _

theorem joinNL_append (l1 l2 : List PyStr) (h1 : l1 ≠ []) (h2 : l2 ≠ []) :
    joinNL (l1 ++ l2) = joinNL l1 ++ 10 :: joinNL l2 := by
  induction l1 with
  | nil => exact absurd rfl h1
  | cons a l1 ih =>
    cases l1 with
    | nil => simpa using joinNL_cons_of_ne_nil a l2 h2
    | cons b l1 =>
      rw [List.cons_append, joinNL_cons_of_ne_nil _ _ (by simp),
        joinNL_cons_of_ne_nil _ _ (by simp), ih (by simp)]
      simp

theorem joinNL_map_joinNL (gs : List (List PyStr)) (h : ∀ g ∈ gs, g ≠ []) :
    joinNL (gs.map joinNL) = joinNL gs.flatten := by
  induction gs with
  | nil => rfl
  | cons g rest ih =>
    cases rest with
    | nil => simp [joinNL]
    | cons g2 rest2 =>
      have hg : g ≠ [] := h g (by simp)
      have hflat : (g2 :: rest2).flatten ≠ [] := by
        have : g2 ≠ [] := h g2 (by simp)
        cases g2 with
        | nil => exact absurd rfl this
        | cons x xs => simp [List.flatten]
      rw [List.map_cons, joinNL_cons_of_ne_nil _ _ (by simp),
        ih (fun g hg2 => h g (List.mem_cons_of_mem _ hg2))]
      conv_rhs => rw [List.flatten_cons]
      rw [joinNL_append g _ hg hflat]

theorem segGo_no_marker (cur ls) (h : ∀ l ∈ ls, lineHasMarker l = false) :
    segGo cur ls = if (cur ++ ls).isEmpty then [] else [cur ++ ls] := by
  induction ls generalizing cur with
  | nil => simp [segGo]
  | cons line rest ih =>
    simp only [segGo, h line (List.mem_cons_self _ _), Bool.false_eq_true, if_false]
    rw [ih _ (fun l hl => h l (List.mem_cons_of_mem _ hl))]
    simp [List.isEmpty_iff]

theorem splitNLGo_no_nl (acc s) (h : ∀ c ∈ s, c ≠ 10) :
    splitNLGo acc s = [acc.reverse ++ s] := by
  induction s generalizing acc with
  | nil => simp [splitNLGo]
  | cons c rest ih =>
    simp only [splitNLGo]
    rw [if_neg (h c (List.mem_cons_self _ _)), ih _ (fun d hd => h d (List.mem_cons_of_mem _ hd))]
    simp

theorem mem_dropWhile_imp {p : Nat → Bool} {s : PyStr} {c : Nat}
    (h : c ∈ s.dropWhile p) : c ∈ s := by
  induction s with
  | nil => simp at h
  | cons a rest ih =>
    rw [List.dropWhile_cons] at h
    split at h
    · exact List.mem_cons_of_mem _ (ih h)
    · exact h

theorem mem_pyStrip_imp {s : PyStr} {c : Nat} (h : c ∈ pyStrip s) : c ∈ s := by
  unfold pyStrip at h
  rw [List.mem_reverse] at h
  have h2 := mem_dropWhile_imp h
  rw [List.mem_reverse] at h2
  exact mem_dropWhile_imp h2

theorem mem_cwsGo_imp {s : PyStr} {c : Nat} :
    ∀ {b : Bool}, c ∈ cwsGo b s → c = 32 ∨ c ∈ s := by
  induction s with
  | nil => intro b h; simp [cwsGo] at h
  | cons a rest ih =>
    intro b h
    simp only [cwsGo] at h
    split at h
    · split at h
      · rcases ih h with h2 | h2
        · exact Or.inl h2
        · exact Or.inr (List.mem_cons_of_mem _ h2)
      · rcases List.mem_cons.mp h with h2 | h2
        · exact Or.inl h2
        · rcases ih h2 with h3 | h3
          · exact Or.inl h3
          · exact Or.inr (List.mem_cons_of_mem _ h3)
    · rcases List.mem_cons.mp h with h2 | h2
      · exact Or.inr (h2 ▸ List.mem_cons_self _ _)
      · rcases ih h2 with h3 | h3
        · exact Or.inl h3
        · exact Or.inr (List.mem_cons_of_mem _ h3)

theorem mem_ddGo_imp {s : PyStr} {c : Nat} :
    ∀ {prev : Option Nat}, c ∈ ddGo prev s → c ∈ s := by
  induction s with
  | nil => intro prev h; simp [ddGo] at h
  | cons a rest ih =>
    intro prev h
    simp only [ddGo] at h
    split at h
    · exact List.mem_cons_of_mem _ (ih h)
    · rcases List.mem_cons.mp h with h2 | h2
      · exact h2 ▸ List.mem_cons_self _ _
      · exact List.mem_cons_of_mem _ (ih h2)

theorem mem_fpsGo_imp {s : PyStr} {c : Nat} :
    ∀ {pend : PyStr}, c ∈ fpsGo pend s → c ∈ pend ∨ c ∈ s := by
  induction s with
  | nil => intro pend h; simp only [fpsGo, List.mem_reverse] at h; exact Or.inl h
  | cons a rest ih =>
    intro pend h
    simp only [fpsGo] at h
    split at h
    · rcases ih h with h2 | h2
      · rcases List.mem_cons.mp h2 with h3 | h3
        · exact Or.inr (h3 ▸ List.mem_cons_self _ _)
        · exact Or.inl h3
      · exact Or.inr (List.mem_cons_of_mem _ h2)
    · split at h
      · rcases List.mem_cons.mp h with h2 | h2
        · exact Or.inr (h2 ▸ List.mem_cons_self _ _)
        · rcases ih h2 with h3 | h3
          · simp at h3
          · exact Or.inr (List.mem_cons_of_mem _ h3)
      · rcases List.mem_append.mp h with h2 | h2
        · exact Or.inl (List.mem_reverse.mp h2)
        · rcases List.mem_cons.mp h2 with h3 | h3
          · exact Or.inr (h3 ▸ List.mem_cons_self _ _)
          · rcases ih h3 with h4 | h4
            · simp at h4
            · exact Or.inr (List.mem_cons_of_mem _ h4)

/-- Every character of `clean_text x` survives `normalize_english`, whose
control-character removal deletes all newlines; so the cleaned text is
newline-free. -/
theorem clean_text_no_nl (x : PyStr) : ∀ c ∈ clean_text x, c ≠ 10 := by
  intro c hc
  unfold clean_text at hc
  split at hc
  · simp at hc
  · have h1 := mem_pyStrip_imp hc
    rcases mem_fpsGo_imp h1 with h2 | h2
    · simp at h2
    · have h3 := mem_ddGo_imp h2
      unfold normalize_english at h3
      have h4 := mem_pyStrip_imp h3
      rcases mem_cwsGo_imp h4 with h5 | h5
      · rw [h5]; decide
      · have h6 := List.of_mem_filter h5
        intro hc10
        subst hc10
        exact absurd h6 (by decide)

theorem dropWhile_head?_false {p : Nat → Bool} :
    ∀ {s : PyStr} {h : Nat}, (s.dropWhile p).head? = some h → p h = false := by
  intro s
  induction s with
  | nil => intro h hh; simp at hh
  | cons a rest ih =>
    intro h hh
    rw [List.dropWhile_cons] at hh
    split at hh
    · exact ih hh
    · simp only [List.head?_cons, Option.some.injEq] at hh
      subst hh
      simp_all

theorem dropWhile_suffix_decomp {p : Nat → Bool} (s : PyStr) :
    ∃ pre, pre ++ s.dropWhile p = s := by
  induction s with
  | nil => exact ⟨[], rfl⟩
  | cons a rest ih =>
    rw [List.dropWhile_cons]
    split
    · rcases ih with ⟨pre, hpre⟩
      exact ⟨a :: pre, by simp [hpre]⟩
    · exact ⟨[], rfl⟩

theorem getLast?_append_right (l1 l2 : List Nat) (h : l2 ≠ []) :
    (l1 ++ l2).getLast? = l2.getLast? := by
  rw [← List.head?_reverse, ← List.head?_reverse, List.reverse_append]
  cases hr : l2.reverse with
  | nil => exact absurd (by simpa using congrArg List.reverse hr) h
  | cons x xs => simp [hr]

theorem dropWhile_getLast? {p : Nat → Bool} (s : PyStr) (h : s.dropWhile p ≠ []) :
    (s.dropWhile p).getLast? = s.getLast? := by
  rcases dropWhile_suffix_decomp (p := p) s with ⟨pre, hpre⟩
  conv_rhs => rw [← hpre]
  rw [getLast?_append_right _ _ h]

/-- The head of `pyStrip s` is not whitespace. -/
theorem pyStrip_head (s : PyStr) {h : Nat} (hh : (pyStrip s).head? = some h) :
    pyIsSpace h = false := by
  unfold pyStrip at hh
  rw [List.head?_reverse] at hh
  have hne : (s.dropWhile pyIsSpace).reverse.dropWhile pyIsSpace ≠ [] := by
    intro he; rw [he] at hh; simp at hh
  rw [dropWhile_getLast? _ hne, List.getLast?_reverse] at hh
  exact dropWhile_head?_false hh

/-- The last character of `pyStrip s` is not whitespace. -/
theorem pyStrip_getLast (s : PyStr) {h : Nat} (hh : (pyStrip s).getLast? = some h) :
    pyIsSpace h = false := by
  unfold pyStrip at hh
  rw [List.getLast?_reverse] at hh
  exact dropWhile_head?_false hh

theorem dropWhile_eq_self_of_head {p : Nat → Bool} (s : PyStr)
    (h : ∀ x, s.head? = some x → p x = false) : s.dropWhile p = s := by
  cases s with
  | nil => rfl
  | cons a rest => rw [List.dropWhile_cons, h a rfl]; simp

/-- A string whose first and last characters are not whitespace is a fixed
point of `pyStrip`. -/
theorem pyStrip_eq_self (s : PyStr)
    (h1 : ∀ x, s.head? = some x → pyIsSpace x = false)
    (h2 : ∀ x, s.getLast? = some x → pyIsSpace x = false) : pyStrip s = s := by
  unfold pyStrip
  rw [dropWhile_eq_self_of_head s h1]
  rw [dropWhile_eq_self_of_head s.reverse (fun x hx => h2 x (by rwa [List.head?_reverse] at hx))]
  exact List.reverse_reverse s

theorem pyStrip_idem (s : PyStr) : pyStrip (pyStrip s) = pyStrip s :=
  pyStrip_eq_self _ (fun _ hx => pyStrip_head s hx) (fun _ hx => pyStrip_getLast s hx)

/-! ### Claim C2 -/

/-- Claim C2 (amended): joining the segments accumulated by
`segment_into_events` before its final trim-and-drop comprehension
reproduces the input text exactly (so no line is lost or reordered), and
the returned segments are exactly those segments stripped of surrounding
whitespace with whitespace-only segments dropped. -/
theorem c2_segment_concat (text : PyStr) :
    joinNL (segmentsRaw text) = text ∧
    segment_into_events text =
      ((segmentsRaw text).map pyStrip).filter (fun seg => !seg.isEmpty) := by
  refine ⟨?_, rfl⟩
  unfold segmentsRaw
  rw [joinNL_map_joinNL _ (segGo_groups_ne_nil _ _), segGo_flatten]
  simpa using joinNL_splitOnNL text

/-- Claim C2 counterexample: for the input " a" (a single line with a
leading space) the function returns the single segment "a", whose
concatenation differs from the original line sequence. -/
theorem c2_counterexample :
    segment_into_events (pyStr " a") = [pyStr "a"] ∧
    joinNL (segment_into_events (pyStr " a")) ≠ pyStr " a" := by decide

/-! ### Claim C9 -/

theorem segGo_single (L : PyStr) : segGo [] [L] = [[L]] := by
  cases h : lineHasMarker L <;> simp [segGo, h]

/-- Claim C9 (amended): on input whose lines contain no event marker,
`segment_into_events` returns exactly one segment, equal to the
whitespace-trimmed input (provided that trim is non-empty); and since
`clean_text` output contains no newline and is already stripped, on any
non-empty cleaned text the function returns exactly one segment equal to
that cleaned text. -/
theorem c9_single_segment :
    (∀ t : PyStr, (∀ l ∈ splitOnNL t, lineHasMarker l = false) → pyStrip t ≠ [] →
      segment_into_events t = [pyStrip t]) ∧
    (∀ x : PyStr, clean_text x ≠ [] →
      segment_into_events (clean_text x) = [clean_text x]) := by
  constructor
  · intro t hm hs
    unfold segment_into_events segmentsRaw
    rw [segGo_no_marker _ _ hm]
    have hne : ([] ++ splitOnNL t).isEmpty = false := by
      simp only [List.nil_append]
      cases h : splitOnNL t with
      | nil => exact absurd h (splitNLGo_ne_nil [] t)
      | cons a l => rfl
    rw [hne]
    simp only [Bool.false_eq_true, if_false, List.nil_append, List.map_cons, List.map_nil]
    rw [joinNL_splitOnNL]
    have he : (pyStrip t).isEmpty = false := by
      cases h : pyStrip t with
      | nil => exact absurd h hs
      | cons a l => rfl
    simp [List.filter, he]
  · intro x hx
    have hnl := clean_text_no_nl x
    have hsplit : splitOnNL (clean_text x) = [clean_text x] := by
      simpa using splitNLGo_no_nl [] (clean_text x) hnl
    have hstrip : pyStrip (clean_text x) = clean_text x := by
      unfold clean_text
      split
      · simp [pyStrip]
      · exact pyStrip_idem _
    unfold segment_into_events segmentsRaw
    rw [hsplit, segGo_single]
    simp only [List.map_cons, List.map_nil]
    rw [show joinNL [clean_text x] = clean_text x from rfl, hstrip]
    have he : (clean_text x).isEmpty = false := by
      cases h : clean_text x with
      | nil => exact absurd h hx
      | cons a l => rfl
    simp [List.filter, he]

/-- Claim C9 witness: a marker-free ASCII line is returned as its own
single segment, and a non-empty cleaned text is returned unchanged as the
single segment. -/
theorem c9_witness :
    segment_into_events (pyStr "hello world") = [pyStr "hello world"] ∧
    segment_into_events (clean_text (pyStr " hi ")) = [clean_text (pyStr " hi ")] := by
  constructor
  · have h := c9_single_segment.1 (pyStr "hello world") (by decide) (by decide)
    rw [h, show pyStrip (pyStr "hello world") = pyStr "hello world" from by decide]
  · exact c9_single_segment.2 (pyStr " hi ") (by decide)

/-- Claim C9 counterexample: "a  b" contains no event marker, yet the
single segment returned is the raw input, not the fully cleaned input text
(whose double space is collapsed by `clean_text`). -/
theorem c9_counterexample :
    (∀ l ∈ splitOnNL (pyStr "a  b"), lineHasMarker l = false) ∧
    segment_into_events (pyStr "a  b") = [pyStr "a  b"] ∧
    clean_text (pyStr "a  b") = pyStr "a b" ∧
    segment_into_events (pyStr "a  b") ≠ [clean_text (pyStr "a  b")] := by decide

/-! ### Claim C3 -/

theorem nonArabicOf_filter (p : Nat → Bool) (s : PyStr)
    (h : ∀ c, p c = false → isArabicBlock c = true) :
    nonArabicOf (s.filter p) = nonArabicOf s := by
  unfold nonArabicOf
  rw [List.filter_filter]
  refine List.filter_congr (fun c _ => ?_)
  cases hp : p c with
  | true => simp
  | false =>
    have := h c hp
    simp [this]

theorem nonArabicOf_map (f : Nat → Nat) (s : PyStr)
    (h1 : ∀ c, isArabicBlock c = false → f c = c)
    (h2 : ∀ c, isArabicBlock c = true → isArabicBlock (f c) = true) :
    nonArabicOf (s.map f) = nonArabicOf s := by
  induction s with
  | nil => rfl
  | cons a rest ih =>
    unfold nonArabicOf at ih ⊢
    rw [List.map_cons, List.filter_cons, List.filter_cons]
    cases ha : isArabicBlock a with
    | true => simp [h2 a ha, ha, ih]
    | false => rw [h1 a ha]; simp [ha, ih]

/-- Claim C3 (amended): outside of the NFC normalization step,
`normalize_arabic` never alters a character that is not in the Arabic
block: the non-Arabic-block subsequence of `normalize_arabic x` is
character-for-character the non-Arabic-block subsequence of the
NFC-normalized input.  (The composed `clean_text`, by contrast, does alter
non-Arabic substrings through whitespace and punctuation normalization —
see the counterexample.) -/
theorem c3_nonarabic_preserved (s : PyStr) :
    nonArabicOf (normalize_arabic s) = nonArabicOf (nfc s) := by
  unfold normalize_arabic
  split
  · unfold arabicSteps removeTatweel
    rw [nonArabicOf_filter _ _ (fun c hc => by
        have hd : isArabicDiacritic c = true := by
          cases hdc : isArabicDiacritic c
          · rw [hdc] at hc
            exact absurd hc (by decide)
          · rfl
        unfold isArabicDiacritic at hd
        unfold isArabicBlock
        simp only [Bool.or_eq_true, Bool.and_eq_true, decide_eq_true_eq] at hd ⊢
        omega)]
    rw [nonArabicOf_map tehMapChar _ (fun c hc => by
        unfold tehMapChar
        rw [if_neg]
        intro he
        subst he
        simp [isArabicBlock] at hc)
      (fun c hc => by
        unfold tehMapChar
        split
        · decide
        · exact hc)]
    rw [nonArabicOf_map yehMapChar _ (fun c hc => by
        unfold yehMapChar
        rw [if_neg]
        intro he
        subst he
        simp [isArabicBlock] at hc)
      (fun c hc => by
        unfold yehMapChar
        split
        · decide
        · exact hc)]
    rw [nonArabicOf_map alefMapChar _ (fun c hc => by
        unfold alefMapChar
        rw [if_neg]
        rintro (he | he | he | he) <;> (subst he; simp [isArabicBlock] at hc))
      (fun c hc => by
        unfold alefMapChar
        split
        · decide
        · exact hc)]
    rw [nonArabicOf_filter _ _ (fun c hc => by
        simp only [decide_eq_false_iff_not, not_not] at hc
        subst hc
        decide)]
  · rfl

/-- Claim C3 counterexample: the pure-ASCII input "a  b" contains no
Arabic-script character at all, yet `clean_text` alters it (the double
space collapses), so the composed `clean_text` does not leave
non-Arabic-script substrings intact. -/
theorem c3_counterexample :
    hasArabicChar (pyStr "a  b") = false ∧
    clean_text (pyStr "a  b") = pyStr "a b" ∧
    clean_text (pyStr "a  b") ≠ pyStr "a  b" := by decide

/-! ### Claim C8 -/

theorem nfcPair_none (b m : Nat) (h1 : m ≠ 0x653) (h2 : m ≠ 0x654) (h3 : m ≠ 0x655) :
    nfcPair b m = none := by
  unfold nfcPair
  split_ifs with g1 g2 g3 g4 g5
  · simp only [Bool.and_eq_true, beq_iff_eq] at g1
    exact absurd g1.2 h1
  · simp only [Bool.and_eq_true, beq_iff_eq] at g2
    exact absurd g2.2 h2
  · simp only [Bool.and_eq_true, beq_iff_eq] at g3
    exact absurd g3.2 h2
  · simp only [Bool.and_eq_true, beq_iff_eq] at g4
    exact absurd g4.2 h3
  · simp only [Bool.and_eq_true, beq_iff_eq] at g5
    exact absurd g5.2 h2
  · rfl

theorem nfcGo_no_marks (b : Nat) (s : PyStr)
    (h : ∀ c ∈ s, c ≠ 0x653 ∧ c ≠ 0x654 ∧ c ≠ 0x655) : nfcGo b s = b :: s := by
  induction s generalizing b with
  | nil => rfl
  | cons m rest ih =>
    have hm := h m (List.mem_cons_self _ _)
    simp only [nfcGo, nfcPair_none b m hm.1 hm.2.1 hm.2.2]
    rw [ih _ (fun c hc => h c (List.mem_cons_of_mem _ hc))]

/-- A string containing none of the Arabic combining marks
U+0653..U+0655 is a fixed point of the (modelled) NFC pass. -/
theorem nfc_no_marks (s : PyStr)
    (h : ∀ c ∈ s, c ≠ 0x653 ∧ c ≠ 0x654 ∧ c ≠ 0x655) : nfc s = s := by
  cases s with
  | nil => rfl
  | cons c rest => exact nfcGo_no_marks c rest (fun d hd => h d (List.mem_cons_of_mem _ hd))

/-- Claim C8 (amended): `normalize_arabic` is the identity function on
pure-ASCII input.  (Neither `normalize_arabic` nor `clean_text` is
idempotent in general — see the counterexample.) -/
theorem c8_ascii_identity (s : PyStr) (h : ∀ c ∈ s, c < 128) :
    normalize_arabic s = s := by
  have hn : nfc s = s := nfc_no_marks s (fun c hc => by
    have := h c hc
    refine ⟨?_, ?_, ?_⟩ <;> omega)
  unfold normalize_arabic
  rw [hn]
  have ha : hasArabicChar s = false := by
    unfold hasArabicChar
    rw [List.any_eq_false]
    intro c hc
    have := h c hc
    simp only [Bool.and_eq_true, decide_eq_true_eq, not_and]
    omega
  simp [ha]

/-- Claim C8 witness: a concrete ASCII string is left unchanged. -/
theorem c8_witness : normalize_arabic (pyStr "hello") = pyStr "hello" :=
  c8_ascii_identity _ (by decide)

/-- Claim C8 counterexample: `normalize_arabic` is not idempotent — on
Alif-Maqsura followed by the combining Hamza-above mark (U+0649 U+0654)
the first pass produces Yeh + Hamza-above (U+064A U+0654), which the
second pass's NFC composes into U+0626; and `clean_text` is not idempotent
on "! !", which one pass turns into "!!" and a second pass into "!". -/
theorem c8_counterexample :
    normalize_arabic (normalize_arabic [0x649, 0x654]) ≠ normalize_arabic [0x649, 0x654] ∧
    clean_text (clean_text (pyStr "! !")) ≠ clean_text (pyStr "! !") := by decide

/-! ### Claim C7 -/

/-- Claim C7: the predicate-filtering step of `generate_triples` returns a
subsequence of its input (same relative order, elements unmodified), and
every retained triple's predicate is a key of the allowed-predicate map. -/
theorem c7_filter_subsequence (allowed : List (PyStr × PyStr)) (ts : List Triple) :
    (filterTriples allowed ts).Sublist ts ∧
    ∀ t ∈ filterTriples allowed ts, t.predicate ∈ predKeys allowed := by
  refine ⟨List.filter_sublist ts, fun t ht => ?_⟩
  have h := List.of_mem_filter ht
  rw [List.any_eq_true] at h
  rcases h with ⟨k, hk, he⟩
  rwa [show k = t.predicate from of_decide_eq_true he] at hk

/-- Claim C7 witness: a concrete allowed-key check on a retained triple. -/
theorem c7_witness :
    (filterTriples EVENT_PREDICATES
      [⟨pyStr "s", pyStr "occurredIn", pyStr "o", []⟩]).Sublist
        [⟨pyStr "s", pyStr "occurredIn", pyStr "o", []⟩] ∧
    (⟨pyStr "s", pyStr "occurredIn", pyStr "o", []⟩ : Triple).predicate ∈
      predKeys EVENT_PREDICATES :=
  ⟨(c7_filter_subsequence EVENT_PREDICATES _).1,
   (c7_filter_subsequence EVENT_PREDICATES
     [⟨pyStr "s", pyStr "occurredIn", pyStr "o", []⟩]).2 _ (by decide)⟩

/-! ### Claim C10 -/

theorem filterTriples_nil (ts : List Triple) : filterTriples [] ts = [] := by
  simp [filterTriples, predKeys]

/-- Claim C10: for theme "other" the allowed-predicate map is empty, so
`generate_triples` succeeds (given a truthy user ontology class) with an
empty `triples` list, whatever the input text, topics, filesystem and
LLM-produced candidates: every candidate is dropped by the filter. -/
theorem c10_other_empty (fs : PyStr → Option PyStr)
    (llm : PyStr → List PyStr → PyStr → PyStr → List Triple)
    (text : PyStr) (topics : List PyStr) (user_tbox : Option PyStr)
    (h : ¬ userTboxFalsy user_tbox) :
    get_allowed_predicates (pyStr "other") = [] ∧
    ∃ r, generate_triples fs llm text topics (pyStr "other") user_tbox = .ok r ∧
      r.triples = [] := by
  have hga : get_allowed_predicates (pyStr "other") = [] := by decide
  refine ⟨hga, ?_⟩
  unfold generate_triples load_tbox_template
  rw [if_neg (by decide : ¬ pyStr "other" = pyStr "event"),
    if_neg (by decide : ¬ pyStr "other" = pyStr "cultural"),
    if_pos rfl, if_neg h]
  refine ⟨_, rfl, ?_⟩
  show filterTriples (get_allowed_predicates (pyStr "other")) _ = []
  rw [hga, filterTriples_nil]

/-- Claim C10 witness: a concrete run with theme "other", a user class,
and an LLM that proposes one candidate triple still yields no triples. -/
theorem c10_witness :
    ∃ r, generate_triples (fun _ => none)
        (fun _ _ _ _ => [⟨pyStr "a", pyStr "p", pyStr "b", []⟩])
        (pyStr "نص") [] (pyStr "other") (some (pyStr "ex:Thing")) = .ok r ∧
      r.triples = [] :=
  (c10_other_empty (fun _ => none) (fun _ _ _ _ => [⟨pyStr "a", pyStr "p", pyStr "b", []⟩])
    (pyStr "نص") [] (some (pyStr "ex:Thing")) (by decide)).2

/-! ### Claim C5 -/

theorem exceptIsError_ok {α β : Type} (x : β) :
    exceptIsError (α := α) (.ok x) = false := rfl

theorem exceptIsError_error {α β : Type} (e : α) :
    exceptIsError (β := β) (.error e) = true := rfl

/-- Claim C5: `load_tbox_template` raises a `ValueError` exactly when the
theme is not one of "event", "cultural", "other", or the theme is "other"
and the user ontology class is absent (Python-falsy: `None` or empty); a
missing T-Box template file never raises — `load_tbox_file` then returns
the warning placeholder string instead of the file contents. -/
theorem c5_tbox_errors (fs : PyStr → Option PyStr) (theme : PyStr)
    (user_tbox : Option PyStr) :
    (exceptIsError (load_tbox_template fs theme user_tbox) = true ↔
      (theme ∉ [pyStr "event", pyStr "cultural", pyStr "other"] ∨
       (theme = pyStr "other" ∧ userTboxFalsy user_tbox))) ∧
    (∀ filename, fs (tboxPath filename) = none →
      load_tbox_file fs filename = pyStr "# WARNING: Missing T-Box file: " ++ filename) := by
  constructor
  · unfold load_tbox_template
    split_ifs with h1 h2 h3 h4
    · rw [exceptIsError_ok]
      subst h1
      refine iff_of_false (by simp) ?_
      rintro (hmem | ⟨heq, _⟩)
      · exact hmem (by decide)
      · exact absurd heq (by decide)
    · rw [exceptIsError_ok]
      subst h2
      refine iff_of_false (by simp) ?_
      rintro (hmem | ⟨heq, _⟩)
      · exact hmem (by decide)
      · exact absurd heq (by decide)
    · rw [exceptIsError_error]
      exact iff_of_true rfl (Or.inr ⟨h3, h4⟩)
    · rw [exceptIsError_ok]
      subst h3
      refine iff_of_false (by simp) ?_
      rintro (hmem | ⟨_, hfalsy⟩)
      · exact hmem (by decide)
      · exact h4 hfalsy
    · rw [exceptIsError_error]
      refine iff_of_true rfl (Or.inl ?_)
      simp only [List.mem_cons, List.not_mem_nil, or_false]
      rintro (he | he | he)
      · exact h1 he
      · exact h2 he
      · exact h3 he
  · intro filename hf
    unfold load_tbox_file
    rw [hf]

/-- Claim C5 witness: the unknown theme "weird" raises, and with an empty
filesystem the event template resolves to the warning placeholder. -/
theorem c5_witness :
    exceptIsError (load_tbox_template (fun _ => none) (pyStr "weird") none) = true ∧
    load_tbox_file (fun _ => none) (pyStr "event.tbox.ttl") =
      pyStr "# WARNING: Missing T-Box file: event.tbox.ttl" := by
  constructor
  · exact (c5_tbox_errors (fun _ => none) (pyStr "weird") none).1.mpr (Or.inl (by decide))
  · rw [(c5_tbox_errors (fun _ => none) (pyStr "weird") none).2 (pyStr "event.tbox.ttl") rfl]
    decide

/-! ### Claim C6 -/

/-- Claim C6: for the single triple
(subject "مؤتمر المناخ", predicate "occurredIn", object "باريس") with theme
"event" and class `dbo:Event`, the Turtle output contains the line
`:Event_1 a dbo:Event .`, the line `:Event_1 onto:occurredIn :باريس .`
and the label line with the Arabic-tagged subject label. -/
theorem c6_turtle_lines :
    ∃ out, export_turtle_text (fun _ => none)
        [⟨pyStr "مؤتمر المناخ", pyStr "occurredIn", pyStr "باريس", pyStr "..."⟩]
        (pyStr "dbo:Event") (pyStr "event") = .ok out ∧
      pyStr ":Event_1 a dbo:Event ." ∈ splitOnNL out ∧
      pyStr ":Event_1 onto:occurredIn :باريس ." ∈ splitOnNL out ∧
      pyStr ":Event_1 rdfs:label \"مؤتمر المناخ\"@ar ." ∈ splitOnNL out := by
  refine ⟨_, rfl, ?_, ?_, ?_⟩ <;> decide

/-! ### Graph lemmas -/

theorem hasNode_iff_memKeys (G : PyGraph) (n : PyStr) :
    hasNode G n = true ↔ n ∈ G.nodes.map Prod.fst := by
  unfold hasNode
  rw [List.any_eq_true]
  simp only [decide_eq_true_eq, List.mem_map]

theorem hasNode_addNodeRaw (G : PyGraph) (k : PyStr) (a : Attrs) (n : PyStr) :
    hasNode (addNodeRaw G k a) n = (hasNode G n || decide (k = n)) := by
  unfold hasNode addNodeRaw
  simp [List.any_append]

theorem keys_updateNodeAttrs (G : PyGraph) (m : PyStr) (a : Attrs) :
    (updateNodeAttrs G m a).nodes.map Prod.fst = G.nodes.map Prod.fst := by
  unfold updateNodeAttrs
  rw [List.map_map]
  refine List.map_congr_left (fun p _ => ?_)
  by_cases hp : p.1 = m <;> simp [hp]

theorem hasNode_updateNodeAttrs (G : PyGraph) (m : PyStr) (a : Attrs) (n : PyStr) :
    hasNode (updateNodeAttrs G m a) n = hasNode G n := by
  cases h2 : hasNode G n
  · rw [Bool.eq_false_iff]
    intro hmem
    rw [hasNode_iff_memKeys, keys_updateNodeAttrs, ← hasNode_iff_memKeys] at hmem
    simp [hmem] at h2
  · rw [hasNode_iff_memKeys, keys_updateNodeAttrs, ← hasNode_iff_memKeys]
    exact h2

theorem edges_updateNodeAttrs (G : PyGraph) (m : PyStr) (a : Attrs) :
    (updateNodeAttrs G m a).edges = G.edges := rfl

theorem nodes_updateEdgeAttrs (G : PyGraph) (u v : PyStr) (a : Attrs) :
    (updateEdgeAttrs G u v a).nodes = G.nodes := rfl

theorem nodes_edgeFinish (G : PyGraph) (u v : PyStr) (a : Attrs) :
    (if hasEdge G u v then updateEdgeAttrs G u v a
     else { G with edges := G.edges ++ [((u, v), a)] }).nodes = G.nodes := by
  split <;> rfl

theorem hasNode_nxAddEdge (G : PyGraph) (u v : PyStr) (a : Attrs) (n : PyStr) :
    hasNode (nxAddEdge G u v a) n =
      (hasNode G n || decide (u = n) || decide (v = n)) := by
  unfold nxAddEdge
  have hfin : ∀ H : PyGraph, hasNode (if hasEdge H u v then updateEdgeAttrs H u v a
      else { H with edges := H.edges ++ [((u, v), a)] }) n = hasNode H n := by
    intro H
    split <;> rfl
  rw [hfin]
  by_cases hu : hasNode G u = true
  · rw [if_pos hu]
    by_cases hv : hasNode G v = true
    · rw [if_pos hv]
      by_cases hun : u = n
      · subst hun; simp [hu]
      · by_cases hvn : v = n
        · subst hvn; simp [hv]
        · simp [hun, hvn]
    · rw [if_neg hv, hasNode_addNodeRaw]
      by_cases hun : u = n
      · subst hun; simp [hu]
      · by_cases hvn : v = n
        · subst hvn; simp
        · simp [hun, hvn]
  · rw [if_neg hu, hasNode_addNodeRaw]
    by_cases hcv : (hasNode G v || decide (u = v)) = true
    · rw [if_pos hcv, hasNode_addNodeRaw]
      by_cases hun : u = n
      · subst hun; simp
      · rcases Bool.or_eq_true_iff.mp hcv with h | h
        · by_cases hvn : v = n
          · subst hvn; simp [h, hun]
          · simp [hun, hvn]
        · have huv := of_decide_eq_true h
          subst huv
          simp [hun]
    · rw [if_neg hcv, hasNode_addNodeRaw, hasNode_addNodeRaw]

theorem alookup_append_left {α : Type} (l l2 : List (PyStr × α)) (n : PyStr)
    (h : (alookup l n).isSome = true) : alookup (l ++ l2) n = alookup l n := by
  induction l with
  | nil => simp [alookup] at h
  | cons p rest ih =>
    obtain ⟨k, v⟩ := p
    by_cases hk : k = n
    · simp [alookup, hk]
    · rw [List.cons_append]
      show alookup ((k, v) :: (rest ++ l2)) n = alookup ((k, v) :: rest) n
      unfold alookup
      rw [if_neg hk, if_neg hk]
      exact ih (by simpa [alookup, hk] using h)

theorem alookup_isSome_of_any (l : List (PyStr × Attrs)) (n : PyStr)
    (h : l.any (fun p => decide (p.1 = n)) = true) : (alookup l n).isSome = true := by
  induction l with
  | nil => simp at h
  | cons p rest ih =>
    obtain ⟨k, v⟩ := p
    rw [List.any_cons] at h
    by_cases hk : k = n
    · simp [alookup, hk]
    · unfold alookup
      rw [if_neg hk]
      refine ih ?_
      rcases Bool.or_eq_true_iff.mp h with h1 | h1
      · exact absurd (of_decide_eq_true h1) hk
      · exact h1

theorem nodupKeys_addNodeRaw (G : PyGraph) (k : PyStr) (a : Attrs)
    (h : nodupKeys G) (hk : hasNode G k = false) : nodupKeys (addNodeRaw G k a) := by
  unfold nodupKeys addNodeRaw at *
  rw [List.map_append]
  simp only [List.map_cons, List.map_nil]
  rw [List.nodup_append]
  refine ⟨h, List.nodup_singleton _, ?_⟩
  intro x hx hxk
  simp only [List.mem_singleton] at hxk
  subst hxk
  rw [← hasNode_iff_memKeys] at hx
  rw [hx] at hk
  cases hk

theorem nodupKeys_nxAddEdge (G : PyGraph) (u v : PyStr) (a : Attrs)
    (h : nodupKeys G) : nodupKeys (nxAddEdge G u v a) := by
  unfold nxAddEdge
  have hfin : ∀ H : PyGraph, nodupKeys (if hasEdge H u v then updateEdgeAttrs H u v a
      else { H with edges := H.edges ++ [((u, v), a)] }) ↔ nodupKeys H := by
    intro H
    split <;> exact Iff.rfl
  rw [hfin]
  by_cases hu : hasNode G u = true
  · rw [if_pos hu]
    by_cases hv : hasNode G v = true
    · rw [if_pos hv]; exact h
    · rw [if_neg hv]
      exact nodupKeys_addNodeRaw G v [] h (Bool.eq_false_iff.mpr hv)
  · rw [if_neg hu]
    have h1 := nodupKeys_addNodeRaw G u [] h (Bool.eq_false_iff.mpr hu)
    by_cases hv : hasNode (addNodeRaw G u []) v = true
    · rw [if_pos hv]; exact h1
    · rw [if_neg hv]
      exact nodupKeys_addNodeRaw _ v [] h1 (Bool.eq_false_iff.mpr hv)

theorem lookupNode_addNodeRaw (G : PyGraph) (k : PyStr) (a : Attrs) (n : PyStr)
    (h : hasNode G n = true) :
    lookupNode (addNodeRaw G k a) n = lookupNode G n := by
  unfold lookupNode addNodeRaw
  exact alookup_append_left _ _ _ (alookup_isSome_of_any _ _ h)

theorem lookupNode_nxAddEdge (G : PyGraph) (u v : PyStr) (a : Attrs) (n : PyStr)
    (h : hasNode G n = true) :
    lookupNode (nxAddEdge G u v a) n = lookupNode G n := by
  unfold nxAddEdge
  have hfin : ∀ H : PyGraph, lookupNode (if hasEdge H u v then updateEdgeAttrs H u v a
      else { H with edges := H.edges ++ [((u, v), a)] }) n = lookupNode H n := by
    intro H
    split <;> rfl
  rw [hfin]
  have h1 : hasNode (addNodeRaw G u []) n = true := by
    rw [hasNode_addNodeRaw, h]
    simp
  by_cases hu : hasNode G u = true
  · rw [if_pos hu]
    by_cases hv : hasNode G v = true
    · rw [if_pos hv]
    · rw [if_neg hv]
      exact lookupNode_addNodeRaw _ _ _ _ h
  · rw [if_neg hu]
    by_cases hv : hasNode (addNodeRaw G u []) v = true
    · rw [if_pos hv]
      exact lookupNode_addNodeRaw _ _ _ _ h
    · rw [if_neg hv, lookupNode_addNodeRaw _ _ _ _ h1]
      exact lookupNode_addNodeRaw _ _ _ _ h

/-! ### Claim C1 -/

/-- Claim C1 (amended): when the normalized subject or object label is
already a node of the graph, `add_triple` leaves that node's stored
attributes unchanged (it does not update them to the new values); node
identity is the id — key uniqueness is preserved, and the node set after
the call is the old one extended by exactly the normalized subject and
object labels, so re-insertion never creates a duplicate node. -/
theorem c1_add_triple_no_update (G : PyGraph) (t : Triple) (theme tbox source_file : PyStr) :
    (∀ n, hasNode G n = true →
      lookupNode (add_triple G t theme tbox source_file) n = lookupNode G n) ∧
    (nodupKeys G → nodupKeys (add_triple G t theme tbox source_file)) ∧
    (∀ n, hasNode (add_triple G t theme tbox source_file) n =
      (hasNode G n || decide (normalize_label t.subject = n) ||
        decide (normalize_label t.object_ = n))) := by
  refine ⟨?_, ?_, ?_⟩
  · intro n h
    simp only [add_triple]
    by_cases hs : hasNode G (normalize_label t.subject) = true
    · rw [if_pos hs]
      by_cases ho : hasNode G (normalize_label t.object_) = true
      · rw [if_pos ho]
        exact lookupNode_nxAddEdge _ _ _ _ _ h
      · rw [if_neg ho, lookupNode_nxAddEdge _ _ _ _ _ (by rw [hasNode_addNodeRaw, h]; simp)]
        exact lookupNode_addNodeRaw _ _ _ _ h
    · rw [if_neg hs]
      have h1 : hasNode (addNodeRaw G (normalize_label t.subject)
          (tripleNodeAttrs (normalize_label t.subject) theme tbox source_file)) n = true := by
        rw [hasNode_addNodeRaw, h]
        simp
      by_cases ho : hasNode (addNodeRaw G (normalize_label t.subject)
          (tripleNodeAttrs (normalize_label t.subject) theme tbox source_file))
          (normalize_label t.object_) = true
      · rw [if_pos ho, lookupNode_nxAddEdge _ _ _ _ _ h1]
        exact lookupNode_addNodeRaw _ _ _ _ h
      · rw [if_neg ho, lookupNode_nxAddEdge _ _ _ _ _ (by rw [hasNode_addNodeRaw, h1]; simp),
          lookupNode_addNodeRaw _ _ _ _ h1]
        exact lookupNode_addNodeRaw _ _ _ _ h
  · intro h
    simp only [add_triple]
    refine nodupKeys_nxAddEdge _ _ _ _ ?_
    by_cases hs : hasNode G (normalize_label t.subject) = true
    · rw [if_pos hs]
      by_cases ho : hasNode G (normalize_label t.object_) = true
      · rw [if_pos ho]; exact h
      · rw [if_neg ho]
        exact nodupKeys_addNodeRaw _ _ _ h (Bool.eq_false_iff.mpr ho)
    · rw [if_neg hs]
      have h1 := nodupKeys_addNodeRaw G (normalize_label t.subject)
        (tripleNodeAttrs (normalize_label t.subject) theme tbox source_file) h
        (Bool.eq_false_iff.mpr hs)
      by_cases ho : hasNode (addNodeRaw G (normalize_label t.subject)
          (tripleNodeAttrs (normalize_label t.subject) theme tbox source_file))
          (normalize_label t.object_) = true
      · rw [if_pos ho]; exact h1
      · rw [if_neg ho]
        exact nodupKeys_addNodeRaw _ _ _ h1 (Bool.eq_false_iff.mpr ho)
  · intro n
    simp only [add_triple]
    by_cases hs : hasNode G (normalize_label t.subject) = true
    · rw [if_pos hs]
      by_cases ho : hasNode G (normalize_label t.object_) = true
      · rw [if_pos ho, hasNode_nxAddEdge]
      · rw [if_neg ho, hasNode_nxAddEdge, hasNode_addNodeRaw]
        by_cases h1 : normalize_label t.subject = n
        · subst h1; simp [hs]
        · by_cases h2 : normalize_label t.object_ = n
          · subst h2; simp
          · simp [h1, h2]
    · rw [if_neg hs]
      by_cases ho : hasNode (addNodeRaw G (normalize_label t.subject)
          (tripleNodeAttrs (normalize_label t.subject) theme tbox source_file))
          (normalize_label t.object_) = true
      · rw [if_pos ho, hasNode_nxAddEdge, hasNode_addNodeRaw]
        by_cases h1 : normalize_label t.subject = n
        · subst h1; simp
        · by_cases h2 : normalize_label t.object_ = n
          · subst h2
            rw [hasNode_addNodeRaw] at ho
            rcases Bool.or_eq_true_iff.mp ho with h3 | h3
            · simp [h3, h1]
            · exact absurd (of_decide_eq_true h3) h1
          · simp [h1, h2]
      · rw [if_neg ho, hasNode_nxAddEdge, hasNode_addNodeRaw, hasNode_addNodeRaw]
        by_cases h1 : normalize_label t.subject = n
        · subst h1; simp
        · by_cases h2 : normalize_label t.object_ = n
          · subst h2; simp
          · simp [h1, h2]

/-- Claim C1 witness: concrete one-node re-insertion, checked on a graph
with one prior triple; re-insertion also keeps node keys duplicate-free. -/
theorem c1_witness :
    (lookupNode
        (add_triple (add_triple emptyPyGraph ⟨pyStr "A", pyStr "p", pyStr "B", []⟩
          (pyStr "t1") (pyStr "x") (pyStr "f1"))
          ⟨pyStr "A", pyStr "q", pyStr "C", []⟩ (pyStr "t2") (pyStr "y") (pyStr "f2"))
        (pyStr "A") =
      lookupNode (add_triple emptyPyGraph ⟨pyStr "A", pyStr "p", pyStr "B", []⟩
        (pyStr "t1") (pyStr "x") (pyStr "f1")) (pyStr "A")) ∧
    nodupKeys
      (add_triple (add_triple emptyPyGraph ⟨pyStr "A", pyStr "p", pyStr "B", []⟩
        (pyStr "t1") (pyStr "x") (pyStr "f1"))
        ⟨pyStr "A", pyStr "q", pyStr "C", []⟩ (pyStr "t2") (pyStr "y") (pyStr "f2")) :=
  ⟨(c1_add_triple_no_update _ _ _ _ _).1 (pyStr "A") (by decide),
   (c1_add_triple_no_update _ _ _ _ _).2.1 (by decide)⟩

/-- Claim C1 counterexample: re-inserting subject "A" with a new theme
"t2" does not update the node's attributes — the stored theme is still
"t1", contradicting the claim that re-insertion updates attributes to the
newly supplied values. -/
theorem c1_counterexample :
    ((lookupNode
        (add_triple (add_triple emptyPyGraph ⟨pyStr "A", pyStr "p", pyStr "B", []⟩
          (pyStr "t1") (pyStr "x") (pyStr "f1"))
          ⟨pyStr "A", pyStr "q", pyStr "C", []⟩ (pyStr "t2") (pyStr "y") (pyStr "f2"))
        (pyStr "A")).bind (fun a => alookup a (pyStr "theme")) = some (pyStr "t1")) ∧
    pyStr "t1" ≠ pyStr "t2" := by decide

/-! ### Merge lemmas -/

theorem keys_updateEdgeAttrs (G : PyGraph) (u v : PyStr) (a : Attrs) :
    (updateEdgeAttrs G u v a).edges.map Prod.fst = G.edges.map Prod.fst := by
  unfold updateEdgeAttrs
  rw [List.map_map]
  refine List.map_congr_left (fun e _ => ?_)
  by_cases he : e.1 = (u, v) <;> simp [he]

theorem hasEdge_iff_memKeys (G : PyGraph) (u v : PyStr) :
    hasEdge G u v = true ↔ (u, v) ∈ G.edges.map Prod.fst := by
  unfold hasEdge
  rw [List.any_eq_true]
  simp only [decide_eq_true_eq, List.mem_map]

theorem hasEdge_updateEdgeAttrs (G : PyGraph) (u v x y : PyStr) (a : Attrs) :
    hasEdge (updateEdgeAttrs G u v a) x y = hasEdge G x y := by
  cases h2 : hasEdge G x y
  · rw [Bool.eq_false_iff]
    intro hmem
    rw [hasEdge_iff_memKeys, keys_updateEdgeAttrs, ← hasEdge_iff_memKeys] at hmem
    simp [hmem] at h2
  · rw [hasEdge_iff_memKeys, keys_updateEdgeAttrs, ← hasEdge_iff_memKeys]
    exact h2

theorem hasNode_of_hasEdge {A : PyGraph} (hok : edgesOK A) {u v : PyStr}
    (h : hasEdge A u v = true) : hasNode A u = true ∧ hasNode A v = true := by
  unfold hasEdge at h
  rw [List.any_eq_true] at h
  obtain ⟨e, he, hkey⟩ := h
  have hk := of_decide_eq_true hkey
  have h0 := hok e he
  rw [hk] at h0
  simpa using h0

/-- `nxAddEdge G u v a` is the edge-insertion step applied to some graph
`H` obtained from `G` by (only) ensuring the two endpoint nodes: `H` has
the same edge list as `G`. -/
theorem nxAddEdge_master (G : PyGraph) (u v : PyStr) (a : Attrs) :
    ∃ H : PyGraph, H.edges = G.edges ∧
      nxAddEdge G u v a = (if hasEdge H u v then updateEdgeAttrs H u v a
        else { H with edges := H.edges ++ [((u, v), a)] }) := by
  refine ⟨_, ?_, rfl⟩
  split <;> split <;> rfl

theorem hasEdge_congr {H G : PyGraph} (h : H.edges = G.edges) (x y : PyStr) :
    hasEdge H x y = hasEdge G x y := by
  unfold hasEdge
  rw [h]

theorem hasEdge_nxAddEdge (G : PyGraph) (u v x y : PyStr) (a : Attrs) :
    hasEdge (nxAddEdge G u v a) x y = (hasEdge G x y || decide ((u, v) = (x, y))) := by
  obtain ⟨H, hHe, heq⟩ := nxAddEdge_master G u v a
  rw [heq]
  split
  · rename_i he
    rw [hasEdge_updateEdgeAttrs, hasEdge_congr hHe]
    by_cases hxy : (u, v) = (x, y)
    · rw [hasEdge_congr hHe] at he
      injection hxy with h1 h2
      subst h1
      subst h2
      simp [he]
    · simp [hxy]
  · show hasEdge ⟨H.nodes, H.edges ++ [((u, v), a)]⟩ x y = _
    unfold hasEdge
    simp only [hHe, List.any_append, List.any_cons, List.any_nil, Bool.or_false]

theorem edgesOK_emptyPyGraph : edgesOK emptyPyGraph := by
  intro e he
  simp [emptyPyGraph] at he

theorem edgesOK_updateNodeAttrs (A : PyGraph) (m : PyStr) (a : Attrs)
    (h : edgesOK A) : edgesOK (updateNodeAttrs A m a) := by
  intro e he
  rw [edges_updateNodeAttrs] at he
  have h0 := h e he
  rw [hasNode_updateNodeAttrs, hasNode_updateNodeAttrs]
  exact h0

theorem edgesOK_addNodeRaw (A : PyGraph) (k : PyStr) (a : Attrs)
    (h : edgesOK A) : edgesOK (addNodeRaw A k a) := by
  intro e he
  have h0 := h e he
  constructor <;> rw [hasNode_addNodeRaw] <;> simp [h0.1, h0.2]

theorem edgesOK_updateEdgeAttrs (A : PyGraph) (u v : PyStr) (a : Attrs)
    (h : edgesOK A) : edgesOK (updateEdgeAttrs A u v a) := by
  intro e he
  show hasNode A e.1.1 = true ∧ hasNode A e.1.2 = true
  unfold updateEdgeAttrs at he
  simp only [List.mem_map] at he
  obtain ⟨e0, he0, rfl⟩ := he
  have h0 := h e0 he0
  by_cases hc : e0.1 = (u, v)
  · simpa [hc] using h0
  · simpa [hc] using h0

theorem edgesOK_nxAddEdge (A : PyGraph) (u v : PyStr) (a : Attrs)
    (h : edgesOK A) : edgesOK (nxAddEdge A u v a) := by
  intro e he
  rw [hasNode_nxAddEdge, hasNode_nxAddEdge]
  obtain ⟨H, hHe, heq⟩ := nxAddEdge_master A u v a
  rw [heq] at he
  split at he
  · unfold updateEdgeAttrs at he
    simp only [List.mem_map] at he
    obtain ⟨e0, he0, rfl⟩ := he
    rw [hHe] at he0
    have h0 := h e0 he0
    by_cases hc : e0.1 = (u, v)
    · constructor <;> simp [hc, h0.1, h0.2]
    · constructor <;> simp [hc, h0.1, h0.2]
  · rw [show ({ H with edges := H.edges ++ [((u, v), a)] } : PyGraph).edges
        = H.edges ++ [((u, v), a)] from rfl, hHe] at he
    rcases List.mem_append.mp he with h1 | h1
    · have h0 := h e h1
      constructor <;> simp [h0.1, h0.2]
    · simp only [List.mem_singleton] at h1
      subst h1
      constructor <;> simp

theorem edges_mergeNodesAux (A : PyGraph) (ps : List (PyStr × Attrs)) :
    (mergeNodesAux A ps).edges = A.edges := by
  induction ps generalizing A with
  | nil => rfl
  | cons p rest ih =>
    simp only [mergeNodesAux]
    rw [ih]
    split <;> rfl

theorem hasNode_mergeNodesAux (A : PyGraph) (ps : List (PyStr × Attrs)) (n : PyStr) :
    hasNode (mergeNodesAux A ps) n =
      (hasNode A n || ps.any (fun p => decide (p.1 = n))) := by
  induction ps generalizing A with
  | nil => simp [mergeNodesAux]
  | cons p rest ih =>
    simp only [mergeNodesAux, List.any_cons]
    rw [ih]
    by_cases hp : hasNode A p.1 = true
    · rw [if_pos hp, hasNode_updateNodeAttrs]
      by_cases hpn : p.1 = n
      · subst hpn
        simp [hp]
      · simp [hpn]
    · rw [if_neg hp, hasNode_addNodeRaw]
      simp [Bool.or_assoc]

theorem edgesOK_mergeNodesAux (A : PyGraph) (ps : List (PyStr × Attrs))
    (h : edgesOK A) : edgesOK (mergeNodesAux A ps) := by
  intro e he
  rw [edges_mergeNodesAux] at he
  have h0 := h e he
  constructor <;> rw [hasNode_mergeNodesAux] <;> simp [h0.1, h0.2]

theorem edgesOK_mergeEdgesAux (A : PyGraph) (es : List ((PyStr × PyStr) × Attrs))
    (h : edgesOK A) : edgesOK (mergeEdgesAux A es) := by
  induction es generalizing A with
  | nil => exact h
  | cons e rest ih =>
    simp only [mergeEdgesAux]
    split
    · exact ih _ (edgesOK_updateEdgeAttrs _ _ _ _ h)
    · exact ih _ (edgesOK_nxAddEdge _ _ _ _ h)

theorem hasEdge_mergeEdgesAux (A : PyGraph) (es : List ((PyStr × PyStr) × Attrs))
    (x y : PyStr) :
    hasEdge (mergeEdgesAux A es) x y =
      (hasEdge A x y || es.any (fun e => decide (e.1 = (x, y)))) := by
  induction es generalizing A with
  | nil => simp [mergeEdgesAux]
  | cons e rest ih =>
    simp only [mergeEdgesAux, List.any_cons]
    rw [ih]
    by_cases hc : hasEdge A e.1.1 e.1.2 = true
    · rw [if_pos hc, hasEdge_updateEdgeAttrs]
      by_cases hexy : e.1 = (x, y)
      · have hx : hasEdge A x y = true := by
          have h1 : e.1.1 = x := by rw [hexy]
          have h2 : e.1.2 = y := by rw [hexy]
          rw [← h1, ← h2]
          exact hc
        simp [hx, hexy]
      · simp [hexy]
    · rw [if_neg hc, hasEdge_nxAddEdge]
      simp [Bool.or_assoc]

theorem hasNode_mergeEdgesAux (A : PyGraph) (es : List ((PyStr × PyStr) × Attrs))
    (n : PyStr) (hok : edgesOK A) :
    hasNode (mergeEdgesAux A es) n =
      (hasNode A n || es.any (fun e => decide (e.1.1 = n) || decide (e.1.2 = n))) := by
  induction es generalizing A with
  | nil => simp [mergeEdgesAux]
  | cons e rest ih =>
    simp only [mergeEdgesAux, List.any_cons]
    by_cases hc : hasEdge A e.1.1 e.1.2 = true
    · rw [if_pos hc, ih _ (edgesOK_updateEdgeAttrs _ _ _ _ hok)]
      have hep := hasNode_of_hasEdge hok hc
      show (hasNode A n || _) = _
      by_cases h1 : e.1.1 = n
      · subst h1
        simp [hep.1]
      · by_cases h2 : e.1.2 = n
        · subst h2
          simp [hep.2]
        · simp [h1, h2]
    · rw [if_neg hc, ih _ (edgesOK_nxAddEdge _ _ _ _ hok), hasNode_nxAddEdge]
      simp [Bool.or_assoc]

theorem hasNode_mergeAux (A : PyGraph) (gs : List PyGraph) (n : PyStr)
    (hok : edgesOK A) :
    hasNode (mergeAux A gs) n =
      (hasNode A n || gs.any (fun g => hasNode g n || isEndpoint g n)) := by
  induction gs generalizing A with
  | nil => simp [mergeAux]
  | cons g rest ih =>
    simp only [mergeAux, List.any_cons]
    rw [ih _ (edgesOK_mergeEdgesAux _ _ (edgesOK_mergeNodesAux _ _ hok)),
      hasNode_mergeEdgesAux _ _ _ (edgesOK_mergeNodesAux _ _ hok),
      hasNode_mergeNodesAux]
    simp [Bool.or_assoc, hasNode, isEndpoint]

theorem hasEdge_mergeAux (A : PyGraph) (gs : List PyGraph) (x y : PyStr) :
    hasEdge (mergeAux A gs) x y =
      (hasEdge A x y || gs.any (fun g => hasEdge g x y)) := by
  induction gs generalizing A with
  | nil => simp [mergeAux]
  | cons g rest ih =>
    simp only [mergeAux, List.any_cons]
    rw [ih, hasEdge_mergeEdgesAux,
      hasEdge_congr (edges_mergeNodesAux A g.nodes) x y]
    simp [Bool.or_assoc, hasEdge]

theorem nxAddEdge_fresh (A : PyGraph) (u v : PyStr) (a : Attrs)
    (hu : hasNode A u = true) (hv : hasNode A v = true)
    (he : hasEdge A u v = false) :
    nxAddEdge A u v a = { A with edges := A.edges ++ [((u, v), a)] } := by
  simp [nxAddEdge, hu, hv, he]

theorem mergeNodesAux_fresh (A : PyGraph) (ps : List (PyStr × Attrs))
    (hnd : (ps.map Prod.fst).Nodup) (habs : ∀ p ∈ ps, hasNode A p.1 = false) :
    mergeNodesAux A ps = { A with nodes := A.nodes ++ ps } := by
  induction ps generalizing A with
  | nil =>
    show A = _
    cases A
    simp
  | cons p rest ih =>
    simp only [mergeNodesAux]
    rw [if_neg (by simp [habs p (List.mem_cons_self _ _)])]
    simp only [List.map_cons, List.nodup_cons] at hnd
    rw [ih _ hnd.2 ?habs2]
    case habs2 =>
      intro q hq
      rw [hasNode_addNodeRaw, habs q (List.mem_cons_of_mem _ hq)]
      have hne : p.1 ≠ q.1 := by
        intro hpq
        exact hnd.1 (hpq ▸ List.mem_map_of_mem Prod.fst hq)
      simp [hne]
    cases A
    simp [addNodeRaw]

theorem mergeEdgesAux_fresh (A : PyGraph) (es : List ((PyStr × PyStr) × Attrs))
    (hnd : (es.map Prod.fst).Nodup)
    (habs : ∀ e ∈ es, hasEdge A e.1.1 e.1.2 = false)
    (hend : ∀ e ∈ es, hasNode A e.1.1 = true ∧ hasNode A e.1.2 = true) :
    mergeEdgesAux A es = { A with edges := A.edges ++ es } := by
  induction es generalizing A with
  | nil =>
    show A = _
    cases A
    simp
  | cons e rest ih =>
    simp only [mergeEdgesAux]
    rw [if_neg (by simp [habs e (List.mem_cons_self _ _)])]
    have h0 := hend e (List.mem_cons_self _ _)
    rw [nxAddEdge_fresh A _ _ _ h0.1 h0.2 (habs e (List.mem_cons_self _ _))]
    simp only [List.map_cons, List.nodup_cons] at hnd
    rw [ih _ hnd.2 ?habs2 ?hend2]
    case habs2 =>
      intro q hq
      show (A.edges ++ [((e.1.1, e.1.2), e.2)]).any
        (fun e2 => decide (e2.1 = (q.1.1, q.1.2))) = false
      rw [List.any_append]
      have h1 : hasEdge A q.1.1 q.1.2 = false := habs q (List.mem_cons_of_mem _ hq)
      have hne : e.1 ≠ q.1 := by
        intro hpq
        exact hnd.1 (hpq ▸ List.mem_map_of_mem Prod.fst hq)
      have h2 : ((e.1.1, e.1.2) : PyStr × PyStr) = e.1 := rfl
      have h3 : ((q.1.1, q.1.2) : PyStr × PyStr) = q.1 := rfl
      rw [show (A.edges.any (fun e2 => decide (e2.1 = (q.1.1, q.1.2)))) =
        hasEdge A q.1.1 q.1.2 from rfl, h1]
      simp only [List.any_cons, List.any_nil, Bool.false_or, Bool.or_false]
      rw [show (decide ((e.1.1, e.1.2) = (q.1.1, q.1.2)) : Bool) =
        decide (e.1 = q.1) from by rw [h2, h3]]
      simp [hne]
    case hend2 =>
      intro q hq
      have h1 := hend q (List.mem_cons_of_mem _ hq)
      constructor
      · show hasNode A q.1.1 = true
        exact h1.1
      · show hasNode A q.1.2 = true
        exact h1.2
    cases A
    simp

theorem any_of_perm {α : Type} {l l' : List α} (h : l.Perm l') (f : α → Bool) :
    l.any f = l'.any f := by
  induction h with
  | nil => rfl
  | cons x _ ih => simp [List.any_cons, ih]
  | swap x y l =>
    simp only [List.any_cons, ← Bool.or_assoc]
    rw [Bool.or_comm (f y) (f x)]
  | trans _ _ ih1 ih2 => rw [ih1, ih2]

/-! ### Claim C4 -/

/-- Claim C4: `merge_graphs []` is the graph with no nodes and no edges;
`merge_graphs [G]` equals `G` (attributes included) for every well-formed
graph; node and edge membership of the merged graph is invariant under
permutation of the input list; and attribute values do depend on the
order (last writer wins), witnessed by two one-node graphs merged in both
orders. -/
theorem c4_merge_graphs :
    merge_graphs [] = emptyPyGraph ∧
    (∀ G : PyGraph, wellFormed G → merge_graphs [G] = G) ∧
    (∀ gs gs' : List PyGraph, gs.Perm gs' → ∀ n u v : PyStr,
      hasNode (merge_graphs gs) n = hasNode (merge_graphs gs') n ∧
      hasEdge (merge_graphs gs) u v = hasEdge (merge_graphs gs') u v) ∧
    (merge_graphs [⟨[(pyStr "N", [(pyStr "theme", pyStr "t1")])], []⟩,
        ⟨[(pyStr "N", [(pyStr "theme", pyStr "t2")])], []⟩] ≠
      merge_graphs [⟨[(pyStr "N", [(pyStr "theme", pyStr "t2")])], []⟩,
        ⟨[(pyStr "N", [(pyStr "theme", pyStr "t1")])], []⟩]) := by
  refine ⟨rfl, ?_, ?_, by decide⟩
  · intro G hwf
    show mergeAux emptyPyGraph [G] = G
    simp only [mergeAux]
    rw [mergeNodesAux_fresh emptyPyGraph G.nodes hwf.1 (fun p _ => rfl)]
    rw [mergeEdgesAux_fresh _ G.edges hwf.2.1 ?habs ?hend]
    case habs =>
      intro e _
      rfl
    case hend =>
      intro e he
      have h0 := hwf.2.2 e he
      constructor
      · rw [show hasNode { emptyPyGraph with nodes := emptyPyGraph.nodes ++ G.nodes } e.1.1
          = hasNode G e.1.1 from by unfold hasNode emptyPyGraph; simp]
        exact h0.1
      · rw [show hasNode { emptyPyGraph with nodes := emptyPyGraph.nodes ++ G.nodes } e.1.2
          = hasNode G e.1.2 from by unfold hasNode emptyPyGraph; simp]
        exact h0.2
    cases G
    simp [emptyPyGraph]
  · intro gs gs' hperm n u v
    constructor
    · rw [show merge_graphs gs = mergeAux emptyPyGraph gs from rfl,
        show merge_graphs gs' = mergeAux emptyPyGraph gs' from rfl,
        hasNode_mergeAux _ _ _ edgesOK_emptyPyGraph,
        hasNode_mergeAux _ _ _ edgesOK_emptyPyGraph,
        any_of_perm hperm]
    · rw [show merge_graphs gs = mergeAux emptyPyGraph gs from rfl,
        show merge_graphs gs' = mergeAux emptyPyGraph gs' from rfl,
        hasEdge_mergeAux, hasEdge_mergeAux, any_of_perm hperm]

/-- Claim C4 witness: the singleton merge returns a concrete well-formed
one-node one-edge graph unchanged, and a concrete two-graph merge has the
same node membership in either order. -/
theorem c4_witness :
    merge_graphs [(⟨[(pyStr "A", [(pyStr "k", pyStr "v")])],
        [((pyStr "A", pyStr "A"), [(pyStr "p", pyStr "q")])]⟩ : PyGraph)] =
      ⟨[(pyStr "A", [(pyStr "k", pyStr "v")])],
        [((pyStr "A", pyStr "A"), [(pyStr "p", pyStr "q")])]⟩ ∧
    hasNode (merge_graphs [⟨[(pyStr "N", [(pyStr "theme", pyStr "t1")])], []⟩,
        ⟨[(pyStr "M", [])], []⟩]) (pyStr "N") =
      hasNode (merge_graphs [⟨[(pyStr "M", [])], []⟩,
        ⟨[(pyStr "N", [(pyStr "theme", pyStr "t1")])], []⟩]) (pyStr "N") := by
  constructor
  · exact c4_merge_graphs.2.1 _ (by decide)
  · exact (c4_merge_graphs.2.2.1 _ _ (List.Perm.swap _ _ _) (pyStr "N") [] []).1

